import Mathlib

/-!
Shallow embedding of the SchedulerSim repository (src/definitions.py,
src/opsys.py, src/engine.py) and verification of its specification claims.

Modelling conventions:
* Python `Process` objects are identified by a natural-number pid; the heap
  of live objects is a function `Nat → Process` carried inside the
  operating-system state, so that Python aliasing (the same object visible
  from several queues) is represented faithfully.
* The five state queues of `OperatingSystem.processes` are five lists of
  pids, in insertion order, exactly as the Python lists.
* `random()` draws are replaced by an oracle supplied per tick: one boolean
  stream deciding I/O completion per blocked-queue index, and one boolean
  deciding whether the running process issues I/O this tick
  (`Process.execute_tick`).  Claims are proved for every oracle.
* Fallible Python operations (`list.remove` raising ValueError) are
  modelled with `Option`: `none` is the uncaught exception.
* `duration = abs(duration)` in `Process.__init__` becomes `Int.natAbs`;
  `time_executed` starts at 0 and all arithmetic is exact (Python ints).
-/

/-- The states of src/definitions.py: ProcessState. -/
inductive ProcessState where
  | RUNNING
  | READY
  | BLOCKED
  | NEW
  | TERMINATED
deriving DecidableEq, Repr

/-- The actions of src/definitions.py: ProcessAction (RUN, ISSUE_IO,
TERMINATE). -/
inductive ProcessAction where
  | Run
  | IssueIo
  | Terminate
deriving DecidableEq, Repr

/-- Data of a Python `Process` object (src/opsys.py).  The pid is the key
under which the object is stored in the heap, so it is not repeated here;
`_prob_io_request` only feeds the random draw of `execute_tick`, which is
replaced by the oracle, so it carries no information used by any claim. -/
structure Process where
  start_time : Int
  duration : Nat
  time_executed : Nat
deriving DecidableEq, Repr

/-- `Process.__init__`: stores `abs(duration)` and `time_executed = 0`.
Negative durations are silently coerced, not rejected. -/
def Process.init (start_time : Int) (duration : Int) : Process :=
  { start_time := start_time, duration := duration.natAbs, time_executed := 0 }

/-- The scheduling key of PSJFScheduler: `p.duration - p.time_executed`
(Python int subtraction, possibly negative). -/
def Process.remaining (p : Process) : Int :=
  (p.duration : Int) - (p.time_executed : Int)

/-- Python `min(l, key=key)`: the first element of `l` with minimal key,
`none` on the empty list (where Python would raise; both schedulers guard
the call). -/
def minByKey (key : α → Int) : List α → Option α
  | [] => none
  | x :: xs =>
    match minByKey key xs with
    | none => some x
    | some y => if key x ≤ key y then some x else some y

/-- The two bundled scheduling policies of src/opsys.py. -/
inductive SchedPolicy where
  | PSJF
  | FIFO
deriving DecidableEq, Repr

/-- `PSJFScheduler.schedule`: pool = ready list with the running process
appended last (if any); the first pool element with minimal
`duration - time_executed` wins. -/
def PSJF_schedule (procs : Nat → Process) (ready : List Nat)
    (running : Option Nat) : Option Nat :=
  minByKey (fun p => (procs p).remaining) (ready ++ running.toList)

/-- `FIFOScheduler.schedule`: the running process if present, else the
first ready process with minimal `start_time`. -/
def FIFO_schedule (procs : Nat → Process) (ready : List Nat)
    (running : Option Nat) : Option Nat :=
  match running with
  | some p => some p
  | none => minByKey (fun p => (procs p).start_time) ready

/-- Dispatch of `self.scheduling_policy.schedule(...)`. -/
def runSched : SchedPolicy → (Nat → Process) → List Nat → Option Nat → Option Nat
  | SchedPolicy.PSJF, procs, ready, running => PSJF_schedule procs ready running
  | SchedPolicy.FIFO, procs, ready, running => FIFO_schedule procs ready running

/-- State of a Python `OperatingSystem`: the five queues of
`self.processes`, the scheduler, and the heap of Process objects. -/
structure OperatingSystem where
  scheduling_policy : SchedPolicy
  running : List Nat
  ready : List Nat
  blocked : List Nat
  new : List Nat
  terminated : List Nat
  procs : Nat → Process

/-- `OperatingSystem.__init__`: all five queues empty. -/
def OperatingSystem.init (pol : SchedPolicy) (procs : Nat → Process) :
    OperatingSystem :=
  { scheduling_policy := pol, running := [], ready := [], blocked := [],
    new := [], terminated := [], procs := procs }

/-- The `running_process` property: `processes[RUNNING][0]`, or `None` on
IndexError. -/
def OperatingSystem.running_process (s : OperatingSystem) : Option Nat :=
  s.running.head?

/-- `add_new_processes`: append each submitted process to the New queue. -/
def add_new_processes (s : OperatingSystem) (ps : List Nat) : OperatingSystem :=
  { s with new := s.new ++ ps }

/-- `check_for_new_processes`: every process in New whose `start_time`
equals the current tick moves (in order) to the back of Ready. -/
def check_for_new_processes (s : OperatingSystem) (t : Int) : OperatingSystem :=
  { s with
    new := s.new.filter (fun p => !((s.procs p).start_time == t)),
    ready := s.ready ++ s.new.filter (fun p => (s.procs p).start_time == t) }

/-- The loop of `check_for_io_completion`: iterating over a copy of the
Blocked queue with index `i`, element `x` moves to Ready when the draw
`d i` succeeds.  Returns (new Blocked queue, processes moved to Ready). -/
def ioSplit (d : Nat → Bool) : Nat → List Nat → List Nat × List Nat
  | _, [] => ([], [])
  | i, x :: xs =>
    let r := ioSplit d (i + 1) xs
    if d i then (r.1, x :: r.2) else (x :: r.1, r.2)

/-- `check_for_io_completion`: each blocked process independently moves to
the back of Ready when its draw succeeds. -/
def check_for_io_completion (s : OperatingSystem) (d : Nat → Bool) :
    OperatingSystem :=
  let r := ioSplit d 0 s.blocked
  { s with blocked := r.1, ready := s.ready ++ r.2 }

/-- Python `list.remove(a)`: removes the first occurrence of `a`, `none`
models the ValueError when `a` is absent. -/
def removeFirst (a : Nat) : List Nat → Option (List Nat)
  | [] => none
  | x :: xs => if x = a then some xs else (removeFirst a xs).map (x :: ·)

/-- `OperatingSystem._context_switch`: pop the previously running process
(if any), append it to the back of Ready unless it is the chosen process,
then remove the chosen process from Ready (ValueError = `none` when
absent) and append it to Running. -/
def context_switch (s : OperatingSystem) (next : Nat) : Option OperatingSystem :=
  let prev := s.running.getLast?
  let running1 := s.running.dropLast
  let ready1 :=
    match prev with
    | some q => if q ≠ next then s.ready ++ [q] else s.ready
    | none => s.ready
  match removeFirst next ready1 with
  | none => none
  | some ready2 =>
      some { s with running := running1 ++ [next], ready := ready2 }

/-- `OperatingSystem.schedule_next`: no-op when Ready and Running are both
empty; otherwise ask the policy for the next process; no-op when the
choice is the currently running process (Python `is`, i.e. pid equality);
otherwise context switch.  A `none` choice that differs from the running
process would crash inside `_context_switch` (`ready.remove(None)`). -/
def schedule_next (s : OperatingSystem) : Option OperatingSystem :=
  if s.ready.isEmpty && s.running.isEmpty then some s
  else
    let next := runSched s.scheduling_policy s.procs s.ready s.running_process
    if next = s.running_process then some s
    else
      match next with
      | none => none
      | some c => context_switch s c

/-- `OperatingSystem.handle_action`: on ISSUE_IO pop the Running queue and
append the popped process to Blocked; other actions change nothing.  (The
engine only calls this while a process is running, so the pop never sees
an empty list there.) -/
def handle_action (s : OperatingSystem) (a : ProcessAction) : OperatingSystem :=
  match a with
  | ProcessAction.IssueIo =>
    match s.running.getLast? with
    | some q => { s with running := s.running.dropLast, blocked := s.blocked ++ [q] }
    | none => s
  | _ => s

/-- `OperatingSystem.terminate_process`: pop the Running queue and append
the given process to Terminated. -/
def terminate_process (s : OperatingSystem) (p : Nat) : OperatingSystem :=
  { s with running := s.running.dropLast, terminated := s.terminated ++ [p] }

/-- `self.processes[p].time_executed += 1` performed by the engine on the
running process. -/
def incTime (s : OperatingSystem) (p : Nat) : OperatingSystem :=
  { s with procs := fun q =>
      if q = p then
        { s.procs p with time_executed := (s.procs p).time_executed + 1 }
      else s.procs q }

/-- The random draws consumed during one tick of `SimEngine.run`:
`ioComplete i` is the Blocked-queue draw for index `i`
(`random() < 0.2`), `requestsIo` is the running process's
`execute_tick` draw (`random() < prob_io_request`). -/
structure TickOracle where
  ioComplete : Nat → Bool
  requestsIo : Bool

/-- One iteration of the while-loop of `SimEngine.run` at tick `t`:
admit arrivals, resolve I/O completions, schedule, then let the running
process (if any) act: ISSUE_IO moves it to Blocked, RUN increments its
`time_executed` and terminates it when `time_executed >= duration`. -/
def engineTick (o : TickOracle) (t : Nat) (s : OperatingSystem) :
    Option OperatingSystem :=
  let s1 := check_for_new_processes s (t : Int)
  let s2 := check_for_io_completion s1 o.ioComplete
  match schedule_next s2 with
  | none => none
  | some s3 =>
    match s3.running_process with
    | none => some s3
    | some p =>
      if o.requestsIo then
        some (handle_action s3 ProcessAction.IssueIo)
      else
        let s4 := incTime s3 p
        if (s4.procs p).duration ≤ (s4.procs p).time_executed then
          some (terminate_process s4 p)
        else some s4

/-- `k` successive iterations of the while-loop, starting at tick `t`. -/
def runLoop (oracle : Nat → TickOracle) (t : Nat) :
    Nat → OperatingSystem → Option OperatingSystem
  | 0, s => some s
  | k + 1, s =>
    match engineTick (oracle t) t s with
    | none => none
    | some s' => runLoop oracle (t + 1) k s'

/-- State of a Python `SimEngine`: the operating system, the (never
mutated) initial process list, and the tick counter. -/
structure SimEngine where
  os : OperatingSystem
  initial_processes : List Nat
  time : Nat

/-- `SimEngine.run(duration)`: submit all initial processes to New, run
the while-loop while `time < duration`, reset `time` to 0. -/
def SimEngine.run (oracle : Nat → TickOracle) (e : SimEngine) (duration : Int) :
    Option SimEngine :=
  let os1 := add_new_processes e.os e.initial_processes
  match runLoop oracle e.time (duration - (e.time : Int)).toNat os1 with
  | none => none
  | some os2 => some { e with os := os2, time := 0 }

/-- The four queues a live (non-terminated) process can occupy. -/
def activeQ (s : OperatingSystem) : List Nat :=
  s.new ++ s.ready ++ s.running ++ s.blocked

/-- All five queues concatenated. -/
def allPids (s : OperatingSystem) : List Nat :=
  activeQ s ++ s.terminated

/-- First-minimal-element predicate: `c` occurs in `l`, every element
strictly before that occurrence has strictly larger key, and `c`'s key is
minimal over all of `l`.  This is the contract of Python `min` with a key
function. -/
def FirstMinBy (key : α → Int) (l : List α) (c : α) : Prop :=
  ∃ l1 l2, l = l1 ++ c :: l2 ∧ (∀ x ∈ l1, key c < key x) ∧ ∀ x ∈ l, key c ≤ key x

/-- A concrete operating-system state used to instantiate theorems with
hypotheses: PSJF policy, pid 1 running (duration 5), pid 2 ready
(duration 1), so the scheduler preempts 1 with 2. -/
def exOS1 : OperatingSystem :=
  { scheduling_policy := SchedPolicy.PSJF, running := [1], ready := [2],
    blocked := [], new := [], terminated := [],
    procs := fun q => if q = 2 then Process.mk 0 1 0 else Process.mk 0 5 0 }

/-- A heap where every pid denotes a zero-duration process starting at
tick 0 (the boundary case `Process(pid, duration=0)`). -/
def cexStore : Nat → Process := fun _ => Process.mk 0 0 0

/-- The deterministic oracle: no process ever requests I/O and no blocked
process completes I/O (e.g. `prob_io_request = 0`). -/
def cexOracle : Nat → TickOracle :=
  fun _ => { ioComplete := fun _ => false, requestsIo := false }

/-- The state right after submitting the single process 0 to a fresh
PSJF operating system. -/
def cexStart : OperatingSystem :=
  add_new_processes (OperatingSystem.init SchedPolicy.PSJF cexStore) [0]

/-- A heap where every pid denotes a duration-2 process starting at 0. -/
def wStore : Nat → Process := fun _ => Process.mk 0 2 0

/-- A FIFO operating-system state with pid 5 running and pid 3 ready. -/
def wOS7 : OperatingSystem :=
  { scheduling_policy := SchedPolicy.FIFO, running := [5], ready := [3],
    blocked := [], new := [], terminated := [],
    procs := fun q => if q = 3 then Process.mk 0 1 0 else Process.mk 0 9 1 }

/-- A fresh engine owning the single zero-duration process 0. -/
def eW : SimEngine :=
  { os := OperatingSystem.init SchedPolicy.PSJF cexStore,
    initial_processes := [0], time := 0 }

theorem minByKey_eq_none_iff (key : α → Int) (l : List α) :
    minByKey key l = none ↔ l = [] := by
  cases l with
  | nil => simp [minByKey]
  | cons x xs =>
    simp only [minByKey]
    cases h : minByKey key xs with
    | none => simp
    | some y =>
      by_cases hk : key x ≤ key y <;> simp [hk]

theorem minByKey_firstMin (key : α → Int) (l : List α) (c : α)
    (h : minByKey key l = some c) : FirstMinBy key l c := by
  induction l generalizing c with
  | nil => simp [minByKey] at h
  | cons x xs ih =>
    simp only [minByKey] at h
    cases h' : minByKey key xs with
    | none =>
      rw [h'] at h
      have hxs : xs = [] := (minByKey_eq_none_iff key xs).mp h'
      simp only [Option.some.injEq] at h
      subst h hxs
      refine ⟨[], [], rfl, by simp, ?_⟩
      intro z hz
      simp at hz
      simp [hz]
    | some y =>
      rw [h'] at h
      obtain ⟨l1, l2, hsplit, hbefore, hmin⟩ := ih y h'
      by_cases hk : key x ≤ key y
      · simp only [hk, if_true, Option.some.injEq] at h
        subst h
        refine ⟨[], xs, rfl, by simp, ?_⟩
        intro z hz
        rcases List.mem_cons.mp hz with rfl | hz'
        · exact le_refl _
        · exact le_trans hk (hmin z hz')
      · simp only [hk, if_false, Option.some.injEq] at h
        subst h
        refine ⟨x :: l1, l2, by rw [hsplit, List.cons_append], ?_, ?_⟩
        · intro z hz
          rcases List.mem_cons.mp hz with rfl | hz'
          · exact lt_of_not_le hk
          · exact hbefore z hz'
        · intro z hz
          rcases List.mem_cons.mp hz with rfl | hz'
          · exact le_of_lt (lt_of_not_le hk)
          · exact hmin z hz'

theorem firstMinBy_mem (key : α → Int) (l : List α) (c : α)
    (h : FirstMinBy key l c) : c ∈ l := by
  obtain ⟨l1, l2, hsplit, -, -⟩ := h
  rw [hsplit]
  exact List.mem_append_right l1 (List.mem_cons_self c l2)

/-- C3: `PSJFScheduler.schedule` returns `none` exactly when the ready
list is empty and there is no running process; otherwise it returns the
candidate of the pool (ready list with the running process appended last)
with the smallest `remaining = duration - time_executed`, ties broken by
first occurrence in the pool. -/
theorem C3_psjf_schedule_first_minimal (procs : Nat → Process)
    (ready : List Nat) (running : Option Nat) :
    (PSJF_schedule procs ready running = none ↔ ready = [] ∧ running = none) ∧
    ∀ c, PSJF_schedule procs ready running = some c →
      FirstMinBy (fun p => (procs p).remaining) (ready ++ running.toList) c := by
  constructor
  · rw [PSJF_schedule, minByKey_eq_none_iff, List.append_eq_nil]
    cases running <;> simp
  · intro c h
    exact minByKey_firstMin _ _ _ h

theorem C3_witness :
    PSJF_schedule (fun q => Process.mk 0 q 0) [2, 1] (some 3) = some 1 ∧
    FirstMinBy (fun p => ((fun q => Process.mk 0 q 0) p).remaining)
      ([2, 1] ++ (some 3).toList) 1 :=
  ⟨by decide,
   (C3_psjf_schedule_first_minimal (fun q => Process.mk 0 q 0) [2, 1] (some 3)).2
     1 (by decide)⟩

/-- C4: `FIFOScheduler.schedule` returns the running process unchanged
whenever one is present; otherwise it returns the ready process with the
smallest `start_time`, ties broken by queue order, and returns `none`
exactly when the ready list is also empty. -/
theorem C4_fifo_schedule (procs : Nat → Process) (ready : List Nat) :
    (∀ p, FIFO_schedule procs ready (some p) = some p) ∧
    (∀ c, FIFO_schedule procs ready none = some c →
      FirstMinBy (fun p => (procs p).start_time) ready c) ∧
    (FIFO_schedule procs ready none = none ↔ ready = []) := by
  refine ⟨fun p => rfl, ?_, ?_⟩
  · intro c h
    exact minByKey_firstMin _ _ _ h
  · rw [FIFO_schedule, minByKey_eq_none_iff]

theorem C4_witness :
    FIFO_schedule (fun q : Nat => Process.mk (q : Int) q 0) [2, 1] (some 7) = some 7 ∧
    FirstMinBy (fun p => ((fun q : Nat => Process.mk (q : Int) q 0) p).start_time)
      [2, 1] 1 :=
  ⟨(C4_fifo_schedule (fun q : Nat => Process.mk (q : Int) q 0) [2, 1]).1 7,
   (C4_fifo_schedule (fun q : Nat => Process.mk (q : Int) q 0) [2, 1]).2.1 1 (by decide)⟩

theorem minByKey_mem (key : α → Int) (l : List α) (c : α)
    (h : minByKey key l = some c) : c ∈ l :=
  firstMinBy_mem key l c (minByKey_firstMin key l c h)

theorem removeFirst_eq_none_iff (a : Nat) (l : List Nat) :
    removeFirst a l = none ↔ a ∉ l := by
  induction l with
  | nil => simp [removeFirst]
  | cons x xs ih =>
    simp only [removeFirst, List.mem_cons]
    by_cases hx : x = a
    · simp [hx]
    · rw [if_neg hx]
      cases h' : removeFirst a xs with
      | none =>
        simp only [Option.map_none']
        have hnot : a ∉ xs := ih.mp h'
        simp [Ne.symm hx, hnot]
      | some l' =>
        simp only [Option.map_some']
        constructor
        · intro hc
          exact absurd hc (by simp)
        · intro hmem
          exfalso
          have haxs : a ∈ xs := by
            by_contra hn
            rw [ih.mpr hn] at h'
            exact Option.noConfusion h'
          exact hmem (Or.inr haxs)

theorem removeFirst_append_left (a : Nat) (l1 l2 : List Nat) (h : a ∈ l1) :
    removeFirst a (l1 ++ l2) = some (l1.erase a ++ l2) := by
  induction l1 with
  | nil => simp at h
  | cons x xs ih =>
    show (if x = a then some (xs ++ l2)
          else (removeFirst a (xs ++ l2)).map (x :: ·)) = _
    by_cases hx : x = a
    · subst hx
      simp [List.erase_cons_head]
    · rcases List.mem_cons.mp h with rfl | hmem
      · exact absurd rfl hx
      · rw [if_neg hx, ih hmem]
        simp only [Option.map_some', Option.some.injEq]
        rw [List.erase_cons_tail (by simpa using hx)]
        simp

theorem removeFirst_of_mem (a : Nat) (l : List Nat) (h : a ∈ l) :
    removeFirst a l = some (l.erase a) := by
  have := removeFirst_append_left a l [] h
  simpa using this

theorem runSched_mem (pol : SchedPolicy) (procs : Nat → Process)
    (ready : List Nat) (rp : Option Nat) (c : Nat)
    (h : runSched pol procs ready rp = some c) (hne : some c ≠ rp) :
    c ∈ ready := by
  cases pol with
  | PSJF =>
    have hmem := minByKey_mem _ _ _ h
    rcases List.mem_append.mp hmem with h1 | h1
    · exact h1
    · exfalso
      cases rp with
      | none => simp at h1
      | some p =>
        simp only [Option.toList, List.mem_singleton] at h1
        exact hne (by rw [h1])
  | FIFO =>
    cases rp with
    | none => exact minByKey_mem _ _ _ h
    | some p =>
      simp only [runSched, FIFO_schedule, Option.some.injEq] at h
      exact absurd (by rw [h]) hne

theorem runSched_eq_none (pol : SchedPolicy) (procs : Nat → Process)
    (ready : List Nat) (rp : Option Nat)
    (h : runSched pol procs ready rp = none) : ready = [] ∧ rp = none := by
  cases pol with
  | PSJF =>
    have := (minByKey_eq_none_iff _ _).mp h
    rcases List.append_eq_nil.mp this with ⟨h1, h2⟩
    refine ⟨h1, ?_⟩
    cases rp with
    | none => rfl
    | some p => simp at h2
  | FIFO =>
    cases rp with
    | none => exact ⟨(minByKey_eq_none_iff _ _).mp h, rfl⟩
    | some p => simp [runSched, FIFO_schedule] at h

theorem context_switch_single (s : OperatingSystem) (c : Nat)
    (hc : c ∈ s.ready) (hr : s.running.length ≤ 1)
    (hne : some c ≠ s.running_process) :
    context_switch s c =
      some { s with running := [c], ready := s.ready.erase c ++ s.running } := by
  cases hsr : s.running with
  | nil =>
    unfold context_switch
    rw [hsr]
    simp only [List.getLast?_nil, List.dropLast_nil]
    rw [removeFirst_of_mem c s.ready hc]
    simp [hsr]
  | cons q tail =>
    have htail : tail = [] := by
      rw [hsr] at hr
      simp only [List.length_cons] at hr
      exact List.eq_nil_of_length_eq_zero (by omega)
    subst htail
    have hqc : q ≠ c := by
      intro hqq
      apply hne
      rw [OperatingSystem.running_process, hsr, hqq]
      rfl
    unfold context_switch
    rw [hsr]
    simp only [List.getLast?_singleton, List.dropLast_single]
    rw [if_pos hqc, removeFirst_append_left c s.ready [q] hc]
    simp [hsr]

theorem schedule_next_noop (s : OperatingSystem)
    (h : runSched s.scheduling_policy s.procs s.ready s.running_process =
      s.running_process) :
    schedule_next s = some s := by
  unfold schedule_next
  split
  · rfl
  · rw [if_pos h]

theorem schedule_next_switch (s : OperatingSystem) (c : Nat)
    (hr : s.running.length ≤ 1)
    (hc : runSched s.scheduling_policy s.procs s.ready s.running_process = some c)
    (hne : some c ≠ s.running_process) :
    c ∈ s.ready ∧
    schedule_next s =
      some { s with running := [c], ready := s.ready.erase c ++ s.running } := by
  have hmem := runSched_mem _ _ _ _ _ hc hne
  refine ⟨hmem, ?_⟩
  unfold schedule_next
  have hg : (s.ready.isEmpty && s.running.isEmpty) = false := by
    have : ¬s.ready.isEmpty = true := by
      intro hh
      rw [List.isEmpty_iff] at hh
      rw [hh] at hmem
      simp at hmem
    simp [this]
  rw [if_neg (by simp [hg]), hc, if_neg hne]
  exact context_switch_single s c hmem hr hne

theorem context_switch_total (s : OperatingSystem) (c : Nat) (hc : c ∈ s.ready) :
    ∃ s', context_switch s c = some s' := by
  unfold context_switch
  cases hq : s.running.getLast? with
  | none =>
    dsimp only
    rw [removeFirst_of_mem c s.ready hc]
    exact ⟨_, rfl⟩
  | some q =>
    dsimp only
    by_cases hqc : q ≠ c
    · rw [if_pos hqc, removeFirst_append_left c s.ready [q] hc]
      exact ⟨_, rfl⟩
    · rw [if_neg hqc, removeFirst_of_mem c s.ready hc]
      exact ⟨_, rfl⟩

theorem schedule_next_total (s : OperatingSystem) :
    ∃ s', schedule_next s = some s' := by
  by_cases hg : (s.ready.isEmpty && s.running.isEmpty) = true
  · exact ⟨s, by unfold schedule_next; rw [if_pos hg]⟩
  · cases hc : runSched s.scheduling_policy s.procs s.ready s.running_process with
    | none =>
      obtain ⟨h1, h2⟩ := runSched_eq_none _ _ _ _ hc
      exfalso
      apply hg
      have hrun : s.running = [] := by
        rw [OperatingSystem.running_process] at h2
        exact List.head?_eq_none_iff.mp h2
      simp [h1, hrun]
    | some c =>
      by_cases hne : (some c : Option Nat) = s.running_process
      · exact ⟨s, schedule_next_noop s (by rw [hc, hne])⟩
      · have hmem := runSched_mem _ _ _ _ _ hc hne
        obtain ⟨s', hs'⟩ := context_switch_total s c hmem
        refine ⟨s', ?_⟩
        unfold schedule_next
        rw [if_neg hg, hc, if_neg hne]
        exact hs'

/-- C1: whenever the scheduler's choice differs from the currently
running process, `schedule_next` performs a context switch whose effect
is exactly: the previously running process (if any) is appended to the
back of Ready, the chosen process is removed from Ready and becomes the
sole occupant of Running (so Running holds 0 or 1 process afterwards);
when the choice equals the running process, or Ready and Running are both
empty, the queue mapping is unchanged. -/
theorem C1_schedule_next_effect (s : OperatingSystem)
    (hr : s.running.length ≤ 1) :
    (∀ c, runSched s.scheduling_policy s.procs s.ready s.running_process = some c →
      some c ≠ s.running_process →
      schedule_next s =
        some { s with running := [c], ready := s.ready.erase c ++ s.running }) ∧
    (runSched s.scheduling_policy s.procs s.ready s.running_process =
        s.running_process → schedule_next s = some s) ∧
    (s.ready = [] ∧ s.running = [] → schedule_next s = some s) ∧
    (∀ s', schedule_next s = some s' → s'.running.length ≤ 1) := by
  refine ⟨?_, schedule_next_noop s, ?_, ?_⟩
  · intro c hc hne
    exact (schedule_next_switch s c hr hc hne).2
  · intro ⟨h1, h2⟩
    unfold schedule_next
    rw [if_pos (by simp [h1, h2])]
  · intro s' hs'
    by_cases hg : (s.ready.isEmpty && s.running.isEmpty) = true
    · unfold schedule_next at hs'
      rw [if_pos hg] at hs'
      cases hs'
      exact hr
    · cases hc : runSched s.scheduling_policy s.procs s.ready s.running_process with
      | none =>
        obtain ⟨h1, h2⟩ := runSched_eq_none _ _ _ _ hc
        exact absurd (by
          rw [OperatingSystem.running_process] at h2
          simp [h1, List.head?_eq_none_iff.mp h2]) hg
      | some c =>
        by_cases hne : (some c : Option Nat) = s.running_process
        · rw [schedule_next_noop s (by rw [hc, hne])] at hs'
          cases hs'
          exact hr
        · rw [(schedule_next_switch s c hr hc hne).2] at hs'
          cases hs'
          simp

theorem C1_witness :
    exOS1.running.length ≤ 1 ∧
    schedule_next exOS1 =
      some { exOS1 with running := [2], ready := exOS1.ready.erase 2 ++ exOS1.running } :=
  ⟨by decide,
   (C1_schedule_next_effect exOS1 (by decide)).1 2 (by decide) (by decide)⟩

/-- C9: for either bundled scheduler, `schedule_next` never reaches the
not-found error branch of `_context_switch`: whenever the scheduler's
choice differs from the running process it is an element of the Ready
queue, every context switch succeeds, and `schedule_next` as a whole
never fails. -/
theorem C9_remove_cannot_fail (s : OperatingSystem) :
    schedule_next s ≠ none ∧
    ∀ c, runSched s.scheduling_policy s.procs s.ready s.running_process = some c →
      some c ≠ s.running_process →
      c ∈ s.ready ∧ context_switch s c ≠ none := by
  constructor
  · obtain ⟨s', hs'⟩ := schedule_next_total s
    rw [hs']
    exact Option.noConfusion
  · intro c hc hne
    have hmem := runSched_mem _ _ _ _ _ hc hne
    obtain ⟨s', hs'⟩ := context_switch_total s c hmem
    refine ⟨hmem, ?_⟩
    rw [hs']
    exact Option.noConfusion

theorem C9_witness :
    2 ∈ exOS1.ready ∧ context_switch exOS1 2 ≠ none :=
  (C9_remove_cannot_fail exOS1).2 2 (by decide) (by decide)

theorem filter_count_split (f : Nat → Bool) (l : List Nat) (p : Nat) :
    (l.filter f).count p + (l.filter (fun x => !f x)).count p = l.count p := by
  induction l with
  | nil => simp
  | cons x xs ih =>
    rw [List.filter_cons, List.filter_cons]
    by_cases hf : f x
    · rw [if_pos hf, if_neg (by simp [hf]), List.count_cons, List.count_cons]
      omega
    · rw [if_neg hf, if_pos (by simp [hf]), List.count_cons, List.count_cons]
      omega

theorem ioSplit_count (d : Nat → Bool) (i : Nat) (l : List Nat) (p : Nat) :
    ((ioSplit d i l).1).count p + ((ioSplit d i l).2).count p = l.count p := by
  induction l generalizing i with
  | nil => simp [ioSplit]
  | cons x xs ih =>
    simp only [ioSplit]
    have := ih (i + 1)
    by_cases hd : d i
    · rw [if_pos hd]
      dsimp only
      rw [List.count_cons, List.count_cons]
      omega
    · rw [if_neg hd]
      dsimp only
      rw [List.count_cons, List.count_cons]
      omega

theorem ioSplit_snd_subset (d : Nat → Bool) (i : Nat) (l : List Nat) (p : Nat)
    (h : p ∈ (ioSplit d i l).2) : p ∈ l := by
  induction l generalizing i with
  | nil => simp [ioSplit] at h
  | cons x xs ih =>
    by_cases hd : d i
    · simp only [ioSplit, hd, if_true] at h
      rcases List.mem_cons.mp h with rfl | h'
      · exact List.mem_cons_self p xs
      · exact List.mem_cons_of_mem x (ih (i + 1) h')
    · simp only [ioSplit, hd, if_false] at h
      exact List.mem_cons_of_mem x (ih (i + 1) h)

theorem erase_count_of_mem (c : Nat) (l : List Nat) (hc : c ∈ l) (p : Nat) :
    (l.erase c).count p + (if p = c then 1 else 0) = l.count p := by
  by_cases hp : p = c
  · subst hp
    rw [List.count_erase_self]
    have : 1 ≤ l.count p := List.one_le_count_iff.mpr hc
    simp
    omega
  · rw [List.count_erase_of_ne hp]
    simp [hp]

theorem check_new_count (s : OperatingSystem) (t : Int) (p : Nat) :
    (allPids (check_for_new_processes s t)).count p = (allPids s).count p := by
  have := filter_count_split (fun q => (s.procs q).start_time == t) s.new p
  simp only [allPids, activeQ, check_for_new_processes, List.count_append]
  omega

theorem check_io_count (s : OperatingSystem) (d : Nat → Bool) (p : Nat) :
    (allPids (check_for_io_completion s d)).count p = (allPids s).count p := by
  have := ioSplit_count d 0 s.blocked p
  simp only [allPids, activeQ, check_for_io_completion, List.count_append]
  omega

theorem running_eq_singleton (s : OperatingSystem) (p : Nat)
    (hr : s.running.length ≤ 1) (hp : s.running_process = some p) :
    s.running = [p] := by
  rw [OperatingSystem.running_process] at hp
  cases hsr : s.running with
  | nil => rw [hsr] at hp; simp at hp
  | cons q tail =>
    rw [hsr] at hp hr
    simp only [List.head?_cons, Option.some.injEq] at hp
    simp only [List.length_cons] at hr
    rw [hp, List.eq_nil_of_length_eq_zero (by omega : tail.length = 0)]

theorem schedule_next_preserve (s : OperatingSystem)
    (hr : s.running.length ≤ 1) :
    ∃ s', schedule_next s = some s' ∧ s'.running.length ≤ 1 ∧
      s'.terminated = s.terminated ∧ s'.procs = s.procs ∧
      s'.new = s.new ∧ s'.blocked = s.blocked ∧
      s'.scheduling_policy = s.scheduling_policy ∧
      (∀ p, (allPids s').count p = (allPids s).count p) ∧
      (∀ p, p ∈ s'.running → p ∈ s.ready ∨ p ∈ s.running) := by
  by_cases hg : (s.ready.isEmpty && s.running.isEmpty) = true
  · refine ⟨s, by unfold schedule_next; rw [if_pos hg], hr, rfl, rfl, rfl, rfl, rfl,
      fun p => rfl, fun p hp => Or.inr hp⟩
  · cases hc : runSched s.scheduling_policy s.procs s.ready s.running_process with
    | none =>
      obtain ⟨h1, h2⟩ := runSched_eq_none _ _ _ _ hc
      exact absurd (by
        rw [OperatingSystem.running_process] at h2
        simp [h1, List.head?_eq_none_iff.mp h2]) hg
    | some c =>
      by_cases hne : (some c : Option Nat) = s.running_process
      · refine ⟨s, schedule_next_noop s (by rw [hc, hne]), hr, rfl, rfl, rfl, rfl, rfl,
          fun p => rfl, fun p hp => Or.inr hp⟩
      · obtain ⟨hmem, heq⟩ := schedule_next_switch s c hr hc hne
        refine ⟨_, heq, by simp, rfl, rfl, rfl, rfl, rfl, ?_, ?_⟩
        · intro p
          have := erase_count_of_mem c s.ready hmem p
          simp only [allPids, activeQ, List.count_append]
          by_cases hp : p = c <;> simp [List.count_cons, hp] at this ⊢ <;> omega
        · intro p hp
          simp only [List.mem_singleton] at hp
          rw [hp]
          exact Or.inl hmem

theorem mem_active_of_new (s : OperatingSystem) (q : Nat) (h : q ∈ s.new) :
    q ∈ activeQ s := by
  simp [activeQ, List.mem_append, h]

theorem mem_active_of_ready (s : OperatingSystem) (q : Nat) (h : q ∈ s.ready) :
    q ∈ activeQ s := by
  simp [activeQ, List.mem_append, h]

theorem mem_active_of_running (s : OperatingSystem) (q : Nat) (h : q ∈ s.running) :
    q ∈ activeQ s := by
  simp [activeQ, List.mem_append, h]

theorem mem_active_of_blocked (s : OperatingSystem) (q : Nat) (h : q ∈ s.blocked) :
    q ∈ activeQ s := by
  simp [activeQ, List.mem_append, h]

theorem mem_phase_ready (s : OperatingSystem) (t : Int) (d : Nat → Bool) (q : Nat)
    (h : q ∈ (check_for_io_completion (check_for_new_processes s t) d).ready) :
    q ∈ activeQ s := by
  have hready : (check_for_io_completion (check_for_new_processes s t) d).ready =
      (s.ready ++ s.new.filter (fun p => (s.procs p).start_time == t)) ++
        (ioSplit d 0 s.blocked).2 := rfl
  rw [hready] at h
  rcases List.mem_append.mp h with h12 | h3
  · rcases List.mem_append.mp h12 with h1 | h2
    · exact mem_active_of_ready s q h1
    · exact mem_active_of_new s q (List.mem_of_mem_filter h2)
  · exact mem_active_of_blocked s q (ioSplit_snd_subset d 0 _ q h3)

theorem engineTick_delta (o : TickOracle) (t : Nat) (s : OperatingSystem)
    (hr : s.running.length ≤ 1) :
    ∃ s', engineTick o t s = some s' ∧
      s'.running.length ≤ 1 ∧
      s'.scheduling_policy = s.scheduling_policy ∧
      (∀ p, (allPids s').count p = (allPids s).count p) ∧
      (((∀ q, s'.procs q = s.procs q) ∧ s'.terminated = s.terminated)
      ∨ ∃ p, p ∈ activeQ s ∧
          s'.procs p =
            { s.procs p with time_executed := (s.procs p).time_executed + 1 } ∧
          (∀ q, q ≠ p → s'.procs q = s.procs q) ∧
          (((s.procs p).duration ≤ (s.procs p).time_executed + 1 ∧
              s'.terminated = s.terminated ++ [p])
          ∨ ((s.procs p).time_executed + 1 < (s.procs p).duration ∧
              s'.terminated = s.terminated))) := by
  have hr2 : (check_for_io_completion (check_for_new_processes s (t : Int))
      o.ioComplete).running.length ≤ 1 := hr
  obtain ⟨s3, hsched, hr3, hterm3, hprocs3, hnew3, hblocked3, hpol3, hcount3, hrunmem3⟩ :=
    schedule_next_preserve _ hr2
  have hc12 : ∀ p, (allPids (check_for_io_completion
      (check_for_new_processes s (t : Int)) o.ioComplete)).count p =
      (allPids s).count p := by
    intro p
    rw [check_io_count, check_new_count]
  have hc3 : ∀ p, (allPids s3).count p = (allPids s).count p := by
    intro p
    rw [hcount3 p, hc12 p]
  have hprocs3' : s3.procs = s.procs := hprocs3
  have hterm3' : s3.terminated = s.terminated := hterm3
  have hpol3' : s3.scheduling_policy = s.scheduling_policy := hpol3
  have heq : engineTick o t s =
      match schedule_next (check_for_io_completion
          (check_for_new_processes s (t : Int)) o.ioComplete) with
      | none => none
      | some s3 =>
        match s3.running_process with
        | none => some s3
        | some p =>
          if o.requestsIo then some (handle_action s3 ProcessAction.IssueIo)
          else
            if ((incTime s3 p).procs p).duration ≤
                ((incTime s3 p).procs p).time_executed then
              some (terminate_process (incTime s3 p) p)
            else some (incTime s3 p) := rfl
  rw [hsched] at heq
  dsimp only at heq
  cases hrp : s3.running_process with
  | none =>
    rw [hrp] at heq
    dsimp only at heq
    exact ⟨s3, heq, hr3, hpol3', hc3,
      Or.inl ⟨fun q => by rw [hprocs3'], hterm3'⟩⟩
  | some p =>
    rw [hrp] at heq
    dsimp only at heq
    have hrun3 : s3.running = [p] := running_eq_singleton s3 p hr3 hrp
    have hpactive : p ∈ activeQ s := by
      rcases hrunmem3 p (by rw [hrun3]; exact List.mem_singleton_self p) with h1 | h1
      · exact mem_phase_ready s (t : Int) o.ioComplete p h1
      · exact mem_active_of_running s p h1
    by_cases hio : o.requestsIo
    · rw [if_pos hio] at heq
      refine ⟨_, heq, ?_, ?_, ?_, Or.inl ⟨?_, ?_⟩⟩
      · simp [handle_action, hrun3]
      · simp [handle_action, hrun3, hpol3']
      · intro q
        rw [← hc3 q]
        simp only [handle_action, hrun3, List.getLast?_singleton,
          List.dropLast_single, allPids, activeQ, List.count_append]
        rw [List.count_cons]
        simp
        omega
      · intro q
        simp [handle_action, hrun3, hprocs3']
      · simp [handle_action, hrun3, hterm3']
    · rw [if_neg hio] at heq
      have hproc4 : (incTime s3 p).procs p =
          { s.procs p with time_executed := (s.procs p).time_executed + 1 } := by
        simp [incTime, hprocs3']
      by_cases hdone : ((incTime s3 p).procs p).duration ≤
          ((incTime s3 p).procs p).time_executed
      · rw [if_pos hdone] at heq
        rw [hproc4] at hdone
        dsimp only at hdone
        refine ⟨_, heq, ?_, ?_, ?_, Or.inr ⟨p, hpactive, ?_, ?_, Or.inl ⟨hdone, ?_⟩⟩⟩
        · simp [terminate_process, incTime, hrun3]
        · simp [terminate_process, incTime, hpol3']
        · intro q
          rw [← hc3 q]
          simp only [terminate_process, incTime, hrun3, List.dropLast_single,
            allPids, activeQ, List.count_append]
          rw [List.count_cons]
          simp
          omega
        · simp [terminate_process, incTime, hprocs3']
        · intro q hq
          simp [terminate_process, incTime, hprocs3', hq]
        · simp [terminate_process, incTime, hterm3']
      · rw [if_neg hdone] at heq
        rw [hproc4] at hdone
        dsimp only at hdone
        refine ⟨_, heq, ?_, ?_, ?_, Or.inr ⟨p, hpactive, ?_, ?_, Or.inr ⟨by omega, ?_⟩⟩⟩
        · simp [incTime, hrun3]
        · simp [incTime, hpol3']
        · intro q
          rw [← hc3 q]
          simp [incTime, allPids, activeQ]
        · simp [incTime, hprocs3']
        · intro q hq
          simp [incTime, hprocs3', hq]
        · simp [incTime, hterm3']

theorem runLoop_preserve (oracle : Nat → TickOracle) (t k : Nat)
    (s : OperatingSystem) (hr : s.running.length ≤ 1) :
    ∃ s', runLoop oracle t k s = some s' ∧ s'.running.length ≤ 1 ∧
      s'.scheduling_policy = s.scheduling_policy ∧
      ∀ p, (allPids s').count p = (allPids s).count p := by
  induction k generalizing t s with
  | zero => exact ⟨s, rfl, hr, rfl, fun p => rfl⟩
  | succ k ih =>
    obtain ⟨s1, htick, hr1, hpol1, hcnt1, -⟩ := engineTick_delta (oracle t) t s hr
    obtain ⟨s', hloop, hr', hpol', hcnt'⟩ := ih (t + 1) s1 hr1
    refine ⟨s', ?_, hr', hpol'.trans hpol1, fun p => (hcnt' p).trans (hcnt1 p)⟩
    show (match engineTick (oracle t) t s with
      | none => none
      | some s' => runLoop oracle (t + 1) k s') = some s'
    rw [htick]
    exact hloop

theorem engineTick_procs_mono (o : TickOracle) (t : Nat) (s s' : OperatingSystem)
    (hr : s.running.length ≤ 1) (h : engineTick o t s = some s') :
    ∀ q, (s'.procs q).start_time = (s.procs q).start_time ∧
      (s'.procs q).duration = (s.procs q).duration ∧
      (s.procs q).time_executed ≤ (s'.procs q).time_executed := by
  obtain ⟨s2, htick, -, -, -, hdelta⟩ := engineTick_delta o t s hr
  rw [h] at htick
  cases htick
  intro q
  rcases hdelta with ⟨hsame, -⟩ | ⟨p, -, hp, hother, -⟩
  · rw [hsame q]
    exact ⟨rfl, rfl, le_refl _⟩
  · by_cases hq : q = p
    · subst hq
      rw [hp]
      exact ⟨rfl, rfl, Nat.le_succ _⟩
    · rw [hother q hq]
      exact ⟨rfl, rfl, le_refl _⟩

theorem runLoop_procs_mono (oracle : Nat → TickOracle) (t k : Nat)
    (s s' : OperatingSystem) (hr : s.running.length ≤ 1)
    (h : runLoop oracle t k s = some s') :
    ∀ q, (s'.procs q).start_time = (s.procs q).start_time ∧
      (s'.procs q).duration = (s.procs q).duration ∧
      (s.procs q).time_executed ≤ (s'.procs q).time_executed := by
  induction k generalizing t s with
  | zero =>
    cases h
    exact fun q => ⟨rfl, rfl, le_refl _⟩
  | succ k ih =>
    obtain ⟨s1, htick, hr1, -, -, -⟩ := engineTick_delta (oracle t) t s hr
    have hstep : runLoop oracle (t + 1) k s1 = some s' := by
      rw [show runLoop oracle t (k + 1) s =
        (match engineTick (oracle t) t s with
          | none => none
          | some s1 => runLoop oracle (t + 1) k s1) from rfl, htick] at h
      exact h
    intro q
    obtain ⟨ha, hb, hc⟩ := engineTick_procs_mono (oracle t) t s s1 hr htick q
    obtain ⟨ha', hb', hc'⟩ := ih (t + 1) s1 hr1 hstep q
    exact ⟨ha'.trans ha, hb'.trans hb, le_trans hc hc'⟩

theorem engineTick_bound (o : TickOracle) (t : Nat) (s s' : OperatingSystem)
    (hr : s.running.length ≤ 1) (hnd : (allPids s).Nodup)
    (hb : ∀ p, (s.procs p).time_executed ≤ max (s.procs p).duration 1 ∧
      (p ∈ s.terminated ∨ (s.procs p).time_executed < (s.procs p).duration ∨
        (s.procs p).time_executed = 0))
    (h : engineTick o t s = some s') :
    ∀ p, (s'.procs p).time_executed ≤ max (s'.procs p).duration 1 ∧
      (p ∈ s'.terminated ∨ (s'.procs p).time_executed < (s'.procs p).duration ∨
        (s'.procs p).time_executed = 0) := by
  obtain ⟨s2, htick, -, -, -, hdelta⟩ := engineTick_delta o t s hr
  rw [h] at htick
  cases htick
  intro p
  rcases hdelta with ⟨hsame, hterm⟩ | ⟨p0, hact, hp0, hother, hcase⟩
  · rw [hsame p, hterm]
    exact hb p
  · by_cases hq : p = p0
    · subst hq
      have hnotterm : p ∉ s.terminated := by
        intro hmem
        exact (List.disjoint_of_nodup_append hnd) hact hmem
      have hbp := hb p
      have hlt : (s.procs p).time_executed < (s.procs p).duration ∨
          (s.procs p).time_executed = 0 := by
        rcases hbp.2 with h1 | h1 | h1
        · exact absurd h1 hnotterm
        · exact Or.inl h1
        · exact Or.inr h1
      rw [hp0]
      have hmax1 := le_max_left (s.procs p).duration 1
      have hmax2 := le_max_right (s.procs p).duration 1
      rcases hcase with ⟨hdone, hterm⟩ | ⟨hlive, hterm⟩
      · refine ⟨by dsimp only; omega, Or.inl ?_⟩
        rw [hterm]
        exact List.mem_append_right _ (List.mem_singleton_self p)
      · exact ⟨by dsimp only; omega, Or.inr (Or.inl (by dsimp only; omega))⟩
    · rw [hother p hq]
      rcases hcase with ⟨-, hterm⟩ | ⟨-, hterm⟩ <;> rw [hterm]
      · rcases (hb p).2 with h1 | h1 | h1
        · exact ⟨(hb p).1, Or.inl (List.mem_append_left _ h1)⟩
        · exact ⟨(hb p).1, Or.inr (Or.inl h1)⟩
        · exact ⟨(hb p).1, Or.inr (Or.inr h1)⟩
      · exact hb p

theorem runLoop_bound (oracle : Nat → TickOracle) (t k : Nat)
    (s s' : OperatingSystem) (hr : s.running.length ≤ 1)
    (hnd : (allPids s).Nodup)
    (hb : ∀ p, (s.procs p).time_executed ≤ max (s.procs p).duration 1 ∧
      (p ∈ s.terminated ∨ (s.procs p).time_executed < (s.procs p).duration ∨
        (s.procs p).time_executed = 0))
    (h : runLoop oracle t k s = some s') :
    ∀ p, (s'.procs p).time_executed ≤ max (s'.procs p).duration 1 := by
  induction k generalizing t s with
  | zero =>
    cases h
    exact fun p => (hb p).1
  | succ k ih =>
    obtain ⟨s1, htick, hr1, -, hcnt1, -⟩ := engineTick_delta (oracle t) t s hr
    have hnd1 : (allPids s1).Nodup := by
      rw [List.nodup_iff_count_le_one] at hnd ⊢
      intro a
      rw [hcnt1 a]
      exact hnd a
    have hb1 := engineTick_bound (oracle t) t s s1 hr hnd hb htick
    have hstep : runLoop oracle (t + 1) k s1 = some s' := by
      rw [show runLoop oracle t (k + 1) s =
        (match engineTick (oracle t) t s with
          | none => none
          | some s1 => runLoop oracle (t + 1) k s1) from rfl, htick] at h
      exact h
    exact ih (t + 1) s1 hr1 hnd1 hb1 hstep

theorem SimRun_nonpos (oracle : Nat → TickOracle) (e : SimEngine) (d : Int)
    (htime : e.time = 0) (hd : d ≤ 0) :
    SimEngine.run oracle e d = some
      { e with os := add_new_processes e.os e.initial_processes, time := 0 } := by
  unfold SimEngine.run
  rw [htime]
  rw [show (d - ((0 : Nat) : Int)).toNat = 0 by
    rw [Int.toNat_eq_zero]
    omega]
  rfl

theorem SimRun_delta (oracle : Nat → TickOracle) (e : SimEngine) (d : Int)
    (e' : SimEngine) (hr : e.os.running.length ≤ 1)
    (h : SimEngine.run oracle e d = some e') :
    e'.initial_processes = e.initial_processes ∧ e'.time = 0 ∧
    e'.os.running.length ≤ 1 ∧
    ∀ p, (allPids e'.os).count p =
      (allPids e.os).count p + e.initial_processes.count p := by
  have hr1 : (add_new_processes e.os e.initial_processes).running.length ≤ 1 := hr
  obtain ⟨os2, hloop, hr2, -, hcnt⟩ :=
    runLoop_preserve oracle e.time (d - (e.time : Int)).toNat
      (add_new_processes e.os e.initial_processes) hr1
  rw [show SimEngine.run oracle e d =
    (match runLoop oracle e.time (d - (e.time : Int)).toNat
        (add_new_processes e.os e.initial_processes) with
      | none => none
      | some os2 =>
        some { os := os2, initial_processes := e.initial_processes,
               time := 0 }) from rfl, hloop] at h
  cases h
  refine ⟨rfl, rfl, hr2, fun p => ?_⟩
  rw [hcnt p]
  simp only [add_new_processes, allPids, activeQ, List.count_append]
  omega

/-- C10: `SimEngine.run` first appends every initial process to the New
queue without consuming the engine's initial list — even when the
duration is non-positive, in which case no tick executes but the
processes are still submitted — so a second `run` on the same engine
submits every initial process again, duplicating it in the queue
mapping. -/
theorem C10_run_resubmits (oracle oracle2 : Nat → TickOracle) (e : SimEngine)
    (hr : e.os.running.length ≤ 1) :
    (∀ d : Int, e.time = 0 → d ≤ 0 →
      SimEngine.run oracle e d = some
        { e with os := add_new_processes e.os e.initial_processes, time := 0 }) ∧
    (∀ (d : Int) (e' : SimEngine), SimEngine.run oracle e d = some e' →
      e'.initial_processes = e.initial_processes ∧
      ∀ p, (allPids e'.os).count p =
        (allPids e.os).count p + e.initial_processes.count p) ∧
    (∀ (d1 d2 : Int) (e' e'' : SimEngine), SimEngine.run oracle e d1 = some e' →
      SimEngine.run oracle2 e' d2 = some e'' →
      ∀ p, (allPids e''.os).count p =
          (allPids e.os).count p + 2 * e.initial_processes.count p ∧
        (p ∈ e.initial_processes → 2 ≤ (allPids e''.os).count p)) := by
  refine ⟨fun d h1 h2 => SimRun_nonpos oracle e d h1 h2, ?_, ?_⟩
  · intro d e' h
    obtain ⟨ha, -, -, hc⟩ := SimRun_delta oracle e d e' hr h
    exact ⟨ha, hc⟩
  · intro d1 d2 e' e'' h1 h2
    obtain ⟨ha, -, hr', hc⟩ := SimRun_delta oracle e d1 e' hr h1
    obtain ⟨ha', -, -, hc'⟩ := SimRun_delta oracle2 e' d2 e'' hr' h2
    intro p
    have hcount : (allPids e''.os).count p =
        (allPids e.os).count p + 2 * e.initial_processes.count p := by
      rw [hc' p, hc p, ha]
      omega
    refine ⟨hcount, fun hmem => ?_⟩
    have : 1 ≤ e.initial_processes.count p := List.one_le_count_iff.mpr hmem
    omega

theorem C10_witness :
    SimEngine.run cexOracle eW (-1) = some
      { eW with os := add_new_processes eW.os eW.initial_processes, time := 0 } :=
  (C10_run_resubmits cexOracle cexOracle eW (by decide)).1 (-1) rfl (by decide)

/-- C8: the code evaluated at the failing inputs of the claim.  The claim
says malformed configuration (negative duration, out-of-range
probability, non-positive run length) is rejected with a descriptive
error before any tick executes, with nothing silently coerced.  In the
code `Process.__init__` silently stores `abs(duration)` and validates
nothing, and `run` with a non-positive duration executes zero ticks yet
still submits every initial process and returns normally. -/
theorem C8_no_validation :
    Process.init 0 (-5) = Process.mk 0 5 0 ∧
    (Process.init 0 (-5)).duration = 5 ∧
    SimEngine.run cexOracle eW 0 = some
      { eW with os := add_new_processes eW.os eW.initial_processes, time := 0 } :=
  ⟨rfl, rfl, SimRun_nonpos cexOracle eW 0 rfl (by decide)⟩

/-- C2: during a single `SimEngine.run` on a fresh operating system with
pairwise-distinct submitted processes, at every tick boundary every
submitted process appears in exactly one of the five state queues and
the multiset union of the five queues equals the submitted population
with no duplicates. -/
theorem C2_queue_partition (oracle : Nat → TickOracle) (pol : SchedPolicy)
    (store : Nat → Process) (init : List Nat) (hnd : init.Nodup) :
    (∀ k, ∃ s', runLoop oracle 0 k
        (add_new_processes (OperatingSystem.init pol store) init) = some s' ∧
      (allPids s').Perm init ∧
      ∀ p ∈ init, s'.new.count p + s'.ready.count p + s'.running.count p +
        s'.blocked.count p + s'.terminated.count p = 1) ∧
    (∀ d : Int, ∃ e', SimEngine.run oracle
        ⟨OperatingSystem.init pol store, init, 0⟩ d = some e' ∧
      (allPids e'.os).Perm init ∧
      ∀ p ∈ init, e'.os.new.count p + e'.os.ready.count p +
        e'.os.running.count p + e'.os.blocked.count p +
        e'.os.terminated.count p = 1) := by
  have hstart : ∀ p, (allPids (add_new_processes
      (OperatingSystem.init pol store) init)).count p = init.count p := by
    intro p
    simp [allPids, activeQ, add_new_processes, OperatingSystem.init]
  have main : ∀ k, ∃ s', runLoop oracle 0 k
      (add_new_processes (OperatingSystem.init pol store) init) = some s' ∧
      (allPids s').Perm init ∧
      ∀ p ∈ init, s'.new.count p + s'.ready.count p + s'.running.count p +
        s'.blocked.count p + s'.terminated.count p = 1 := by
    intro k
    obtain ⟨s', hloop, -, -, hcnt⟩ := runLoop_preserve oracle 0 k
      (add_new_processes (OperatingSystem.init pol store) init)
      (by simp [add_new_processes, OperatingSystem.init])
    have hcnt' : ∀ p, (allPids s').count p = init.count p := by
      intro p
      rw [hcnt p, hstart p]
    refine ⟨s', hloop, List.perm_iff_count.mpr hcnt', ?_⟩
    intro p hp
    have h1 : init.count p = 1 := List.count_eq_one_of_mem hnd hp
    have h2 := hcnt' p
    simp only [allPids, activeQ, List.count_append] at h2
    omega
  refine ⟨main, ?_⟩
  intro d
  obtain ⟨s', hloop, hperm, hone⟩ := main (d - ((0 : Nat) : Int)).toNat
  refine ⟨⟨s', init, 0⟩, ?_, hperm, hone⟩
  rw [show SimEngine.run oracle ⟨OperatingSystem.init pol store, init, 0⟩ d =
    (match runLoop oracle 0 (d - ((0 : Nat) : Int)).toNat
        (add_new_processes (OperatingSystem.init pol store) init) with
      | none => none
      | some os2 => some ⟨os2, init, 0⟩) from rfl, hloop]

theorem C2_witness :
    ∃ s', runLoop cexOracle 0 1
        (add_new_processes (OperatingSystem.init SchedPolicy.PSJF wStore) [0]) =
        some s' ∧
      (allPids s').Perm [0] ∧
      ∀ p ∈ [0], s'.new.count p + s'.ready.count p + s'.running.count p +
        s'.blocked.count p + s'.terminated.count p = 1 :=
  (C2_queue_partition cexOracle SchedPolicy.PSJF wStore [0] (by decide)).1 1

theorem C5_counterexample :
    ¬ (∀ s', runLoop cexOracle 0 1 cexStart = some s' →
        ∀ p, (s'.procs p).time_executed ≤ (s'.procs p).duration) := by
  intro h
  have h1 : (runLoop cexOracle 0 1 cexStart).map
      (fun s => ((s.procs 0).time_executed, (s.procs 0).duration)) =
      some (1, 0) := by decide
  cases heq : runLoop cexOracle 0 1 cexStart with
  | none =>
    rw [heq] at h1
    exact Option.noConfusion h1
  | some s' =>
    have h2 := h s' heq 0
    rw [heq] at h1
    simp only [Option.map_some', Option.some.injEq, Prod.mk.injEq] at h1
    omega

/-- C5 (amended): during a single run from a fresh operating system,
`time_executed` is non-decreasing from tick to tick, and it never
exceeds the process's duration provided the duration is at least 1; a
zero-duration process reaches `time_executed = 1` on the tick that
terminates it, the only way `time_executed` can exceed `duration`. -/
theorem C5_monotone_bounded (oracle : Nat → TickOracle) (pol : SchedPolicy)
    (store : Nat → Process) (init : List Nat) (hnd : init.Nodup)
    (h0 : ∀ p, (store p).time_executed = 0) :
    (∀ t k s s', s.running.length ≤ 1 → runLoop oracle t k s = some s' →
      ∀ p, (s.procs p).time_executed ≤ (s'.procs p).time_executed) ∧
    (∀ k, ∃ s', runLoop oracle 0 k
        (add_new_processes (OperatingSystem.init pol store) init) = some s' ∧
      ∀ p, (s'.procs p).duration = (store p).duration ∧
        (s'.procs p).time_executed ≤ max (store p).duration 1 ∧
        (1 ≤ (store p).duration →
          (s'.procs p).time_executed ≤ (store p).duration)) := by
  constructor
  · intro t k s s' hr h p
    exact (runLoop_procs_mono oracle t k s s' hr h p).2.2
  · intro k
    have hr0 : (add_new_processes (OperatingSystem.init pol store) init).running.length ≤ 1 := by
      simp [add_new_processes, OperatingSystem.init]
    obtain ⟨s', hloop, -, -, -⟩ := runLoop_preserve oracle 0 k
      (add_new_processes (OperatingSystem.init pol store) init) hr0
    have hnd0 : (allPids (add_new_processes
        (OperatingSystem.init pol store) init)).Nodup := by
      simpa [allPids, activeQ, add_new_processes, OperatingSystem.init] using hnd
    have hb0 : ∀ p, ((add_new_processes (OperatingSystem.init pol store)
          init).procs p).time_executed ≤
        max ((add_new_processes (OperatingSystem.init pol store)
          init).procs p).duration 1 ∧
        (p ∈ (add_new_processes (OperatingSystem.init pol store)
            init).terminated ∨
          ((add_new_processes (OperatingSystem.init pol store)
            init).procs p).time_executed <
            ((add_new_processes (OperatingSystem.init pol store)
              init).procs p).duration ∨
          ((add_new_processes (OperatingSystem.init pol store)
            init).procs p).time_executed = 0) := by
      intro p
      refine ⟨?_, Or.inr (Or.inr ?_)⟩ <;>
        simp [add_new_processes, OperatingSystem.init, h0 p]
    have hbound := runLoop_bound oracle 0 k _ s' hr0 hnd0 hb0 hloop
    have hstatic := runLoop_procs_mono oracle 0 k _ s' hr0 hloop
    refine ⟨s', hloop, fun p => ?_⟩
    have hdur : (s'.procs p).duration = (store p).duration := by
      rw [(hstatic p).2.1]
      simp [add_new_processes, OperatingSystem.init]
    have hmax := hbound p
    rw [hdur] at hmax
    refine ⟨hdur, hmax, fun hge => ?_⟩
    omega

theorem C5_witness :
    ∃ s', runLoop cexOracle 0 1
        (add_new_processes (OperatingSystem.init SchedPolicy.PSJF wStore) [0]) =
        some s' ∧
      ∀ p, (s'.procs p).duration = (wStore p).duration ∧
        (s'.procs p).time_executed ≤ max (wStore p).duration 1 ∧
        (1 ≤ (wStore p).duration →
          (s'.procs p).time_executed ≤ (wStore p).duration) :=
  (C5_monotone_bounded cexOracle SchedPolicy.PSJF wStore [0] (by decide)
    (fun p => rfl)).2 1

theorem C6_counterexample :
    ¬ (∀ s', runLoop cexOracle 0 1 cexStart = some s' →
        ∀ p, p ∈ s'.terminated →
          (s'.procs p).time_executed = (s'.procs p).duration) := by
  intro h
  have h1 : (runLoop cexOracle 0 1 cexStart).map
      (fun s => (s.terminated, (s.procs 0).time_executed, (s.procs 0).duration)) =
      some ([0], 1, 0) := by decide
  cases heq : runLoop cexOracle 0 1 cexStart with
  | none =>
    rw [heq] at h1
    exact Option.noConfusion h1
  | some s' =>
    rw [heq] at h1
    simp only [Option.map_some', Option.some.injEq, Prod.mk.injEq] at h1
    obtain ⟨hterm, htime, hdur⟩ := h1
    have h2 := h s' heq 0 (by rw [hterm]; exact List.mem_singleton_self 0)
    omega

/-- C6 (amended): in any tick of a run whose state satisfies the standing
invariants (at most one running process, no duplicates), a process enters
Terminated exactly when a Run action applied to it this tick raises its
`time_executed` by one to a value that reaches or exceeds its duration
(`>=`, not `==`: a zero-duration process terminates with
`time_executed = 1`); a terminated process is never mutated again. -/
theorem C6_termination (o : TickOracle) (t : Nat) (s : OperatingSystem)
    (hr : s.running.length ≤ 1) (hnd : (allPids s).Nodup) :
    ∃ s', engineTick o t s = some s' ∧
      (∀ p, p ∈ s.terminated → s'.procs p = s.procs p ∧ p ∈ s'.terminated) ∧
      (∀ p, p ∉ s.terminated →
        (p ∈ s'.terminated ↔
          ((s'.procs p).time_executed = (s.procs p).time_executed + 1 ∧
            (s.procs p).duration ≤ (s'.procs p).time_executed))) := by
  obtain ⟨s', htick, -, -, -, hdelta⟩ := engineTick_delta o t s hr
  refine ⟨s', htick, ?_, ?_⟩
  · intro p hp
    rcases hdelta with ⟨hsame, hterm⟩ | ⟨p0, hact, hp0, hother, hcase⟩
    · exact ⟨hsame p, hterm ▸ hp⟩
    · have hne : p ≠ p0 := by
        intro hpq
        subst hpq
        exact (List.disjoint_of_nodup_append hnd) hact hp
      refine ⟨hother p hne, ?_⟩
      rcases hcase with ⟨-, hterm⟩ | ⟨-, hterm⟩
      · rw [hterm]
        exact List.mem_append_left _ hp
      · rw [hterm]
        exact hp
  · intro p hp
    rcases hdelta with ⟨hsame, hterm⟩ | ⟨p0, hact, hp0, hother, hcase⟩
    · rw [hterm, hsame p]
      constructor
      · intro h
        exact absurd h hp
      · rintro ⟨h1, -⟩
        omega
    · by_cases hq : p = p0
      · subst hq
        rw [hp0]
        dsimp only
        rcases hcase with ⟨hdone, hterm⟩ | ⟨hlive, hterm⟩
        · rw [hterm]
          constructor
          · intro h1
            exact ⟨rfl, hdone⟩
          · intro h1
            exact List.mem_append_right _ (List.mem_singleton_self p)
        · rw [hterm]
          constructor
          · intro h
            exact absurd h hp
          · rintro ⟨-, h2⟩
            omega
      · rw [hother p hq]
        rcases hcase with ⟨-, hterm⟩ | ⟨-, hterm⟩ <;> rw [hterm]
        · constructor
          · intro h
            rcases List.mem_append.mp h with h1 | h1
            · exact absurd h1 hp
            · exact absurd (List.mem_singleton.mp h1) hq
          · rintro ⟨h1, -⟩
            exfalso
            omega
        · constructor
          · intro h
            exact absurd h hp
          · rintro ⟨h1, -⟩
            exfalso
            omega

theorem C6_witness :
    ∃ s', engineTick (cexOracle 0) 0 cexStart = some s' ∧
      (∀ p, p ∈ cexStart.terminated →
        s'.procs p = cexStart.procs p ∧ p ∈ s'.terminated) ∧
      (∀ p, p ∉ cexStart.terminated →
        (p ∈ s'.terminated ↔
          ((s'.procs p).time_executed = (cexStart.procs p).time_executed + 1 ∧
            (cexStart.procs p).duration ≤ (s'.procs p).time_executed))) :=
  C6_termination (cexOracle 0) 0 cexStart (by decide) (by decide)

/-- C7: under the FIFO scheduler, a process occupying the Running queue
stays there across a tick unless it issues I/O this tick (moving to
Blocked) or terminates (moving to Terminated); no arrival ever preempts
it, whatever that arrival's start time. -/
theorem C7_fifo_nonpreemption (o : TickOracle) (t : Nat) (s : OperatingSystem)
    (hpol : s.scheduling_policy = SchedPolicy.FIFO) (p : Nat)
    (hrun : s.running = [p]) :
    ∃ s', engineTick o t s = some s' ∧
      (s'.running = [p] ∨ (s'.running = [] ∧ p ∈ s'.blocked) ∨
        (s'.running = [] ∧ p ∈ s'.terminated)) := by
  have hrun2 : (check_for_io_completion (check_for_new_processes s (t : Int))
      o.ioComplete).running = [p] := hrun
  have hrp2 : (check_for_io_completion (check_for_new_processes s (t : Int))
      o.ioComplete).running_process = some p := by
    rw [OperatingSystem.running_process, hrun2]
    rfl
  have hpol2 : (check_for_io_completion (check_for_new_processes s (t : Int))
      o.ioComplete).scheduling_policy = SchedPolicy.FIFO := hpol
  have hsched : schedule_next (check_for_io_completion
      (check_for_new_processes s (t : Int)) o.ioComplete) =
      some (check_for_io_completion (check_for_new_processes s (t : Int))
        o.ioComplete) := by
    apply schedule_next_noop
    rw [hpol2, hrp2]
    rfl
  have heq : engineTick o t s =
      match schedule_next (check_for_io_completion
          (check_for_new_processes s (t : Int)) o.ioComplete) with
      | none => none
      | some s3 =>
        match s3.running_process with
        | none => some s3
        | some q =>
          if o.requestsIo then some (handle_action s3 ProcessAction.IssueIo)
          else
            if ((incTime s3 q).procs q).duration ≤
                ((incTime s3 q).procs q).time_executed then
              some (terminate_process (incTime s3 q) q)
            else some (incTime s3 q) := rfl
  rw [hsched] at heq
  dsimp only at heq
  rw [hrp2] at heq
  dsimp only at heq
  by_cases hio : o.requestsIo = true
  · rw [if_pos hio] at heq
    refine ⟨_, heq, Or.inr (Or.inl ⟨?_, ?_⟩)⟩
    · simp [handle_action, hrun2]
    · simp [handle_action, hrun2]
  · rw [if_neg hio] at heq
    by_cases hdone : ((incTime (check_for_io_completion
        (check_for_new_processes s (t : Int)) o.ioComplete) p).procs p).duration ≤
        ((incTime (check_for_io_completion
          (check_for_new_processes s (t : Int)) o.ioComplete) p).procs p).time_executed
    · rw [if_pos hdone] at heq
      refine ⟨_, heq, Or.inr (Or.inr ⟨?_, ?_⟩)⟩
      · simp [terminate_process, incTime, hrun2]
      · simp [terminate_process, incTime]
    · rw [if_neg hdone] at heq
      refine ⟨_, heq, Or.inl ?_⟩
      simp [incTime, hrun2]

theorem C7_witness :
    ∃ s', engineTick (cexOracle 0) 0 wOS7 = some s' ∧
      (s'.running = [5] ∨ (s'.running = [] ∧ 5 ∈ s'.blocked) ∨
        (s'.running = [] ∧ 5 ∈ s'.terminated)) :=
  C7_fifo_nonpreemption (cexOracle 0) 0 wOS7 rfl 5 rfl
